import Mathlib

/-!
Shallow embedding of `frescobaldi_app/musicview/pointandclick.py`.

The module correlates textedit URLs embedded in a rendered (Poppler) document
with positions in live text buffers.  We embed:

* `texteditMatch` / `readURL` — the URL regex `^textedit://(.*?):(\d+):(\d+)(?::\d+)$`
  and the `readurl` helper (Python `re` semantics: lazy path group, `.` does not
  match a newline, `$` also matches just before one trailing newline);
* `linksTable` / `lookupTable` — `Links.__init__`'s per-file, per-`(line,col)`
  grouping of destinations, and keyed lookup into it;
* `buildLoop` / `cursorsOf` / `destsOf` / `cursorDict` / `boundCursor` —
  `BoundLinks.__init__` and `BoundLinks.cursor`;
* `findlink` / `scan1` / `scan2` / `indices` — the binary search and the
  point/selection query `BoundLinks.indices`, including the backward
  delimiter-resolution token scans.

A text buffer (`QTextDocument`) is embedded as a list of lines, each carrying
its character count and its token list; a `QTextCursor` anchor is its current
integer position.  The token stream accessor (`tokeniter.TokenIterator`,
`ly.tokenize.MatchStart/MatchEnd`) is not part of the given source and is
modelled from the spec's interface (§4.5/§6).
-/

set_option maxHeartbeats 1000000

namespace PointAndClick

/-- A destination `(pageNum, linkArea)`: the page number together with an opaque
identifier standing for the `QRectF` link area, as appended by
`Links.__init__` via `(num, link.linkArea())`. -/
abbrev Dest := Nat × Nat

/-- A `(line, column)` key parsed from a textedit URL (line 1-based, column
0-based). -/
abbrev LinkKey := Nat × Nat

/-- Token kinds relevant to `BoundLinks.indices`.  Modelled from the spec:
the token stream exposes `kind : {opener|closer|other}` (`ly.tokenize.MatchStart`,
`ly.tokenize.MatchEnd`, anything else); the tokenizer itself is outside the
given source. -/
inductive TKind where
  | matchStart
  | matchEnd
  | other
deriving DecidableEq, Repr

/-- A token of one line.  Modelled from the spec: `Token` exposes
`startColumn` (Python `token.pos`, the position inside its block) and the
pair name (`token.matchname`). -/
structure Tok where
  pos : Nat
  kind : TKind
  matchname : String
deriving DecidableEq, Repr

/-- One line (block) of the text buffer: its character count (excluding the
block separator) and its token list. -/
structure Line where
  len : Nat
  toks : List Tok
deriving DecidableEq, Repr

/-- A text buffer as a list of lines (Qt blocks). -/
abbrev Doc := List Line

/-- Position of the first character of block `i` (Qt `QTextBlock.position()`):
each preceding block contributes its length plus one separator character. -/
def blockStart : Doc → Nat → Nat
  | _, 0 => 0
  | [], _ + 1 => 0
  | l :: ls, i + 1 => l.len + 1 + blockStart ls i

/-- Index of the block containing buffer position `p` (Qt `QTextCursor.block()`,
compared by block number); block `i` owns positions
`blockStart i .. blockStart i + len i`. -/
def blockOf : Doc → Nat → Nat
  | [], _ => 0
  | l :: ls, p => if p ≤ l.len then 0 else blockOf ls (p - l.len - 1) + 1

/-- Token list of block `i`. -/
def lineToks (doc : Doc) (i : Nat) : List Tok :=
  (doc.getD i ⟨0, []⟩).toks

/-- The loop body of `findlink` inside `BoundLinks.indices`: binary search over
the cursor position list, returning the final value of `lo`. -/
def findlinkLoop (cs : List Nat) (pos : Nat) (lo hi : Nat) : Nat :=
  if h : lo < hi then
    if pos < cs.getD ((lo + hi) / 2) 0 then findlinkLoop cs pos lo ((lo + hi) / 2)
    else findlinkLoop cs pos ((lo + hi) / 2 + 1) hi
  else lo
termination_by hi - lo
decreasing_by all_goals omega

/-- `findlink(pos)` from `BoundLinks.indices`: returns `lo - 1`, i.e. the last
index whose cursor position is `≤ pos`, or `-1`. -/
def findlink (cs : List Nat) (pos : Nat) : Int :=
  (findlinkLoop cs pos 0 cs.length : Int) - 1

/-- Number of entries of `cs` that are `≤ pos`; for a sorted list this is the
insertion point computed by `findlink`'s loop. -/
def cntLe (cs : List Nat) (pos : Nat) : Nat :=
  cs.countP (fun x => decide (x ≤ pos))

/-- Pair names whose `MatchEnd` the point query recognizes:
`token.matchname in ('slur', 'phrasingslur', 'beam')`. -/
def recognizedName (s : String) : Bool :=
  s == "slur" || s == "phrasingslur" || s == "beam"

/-- First backward scan of `BoundLinks.indices` (`for token in tokens.backward(False)`):
walks the caret block's tokens left from the block end; stops empty-handed at a
token at or before `prevcol`; at a token at or before `col` tests whether it is
a recognized `MatchEnd` and, if so, stops there, returning that token and the
rest of the backward stream within the block; any other token is passed over.
Modelled from the spec: the token iterator itself (`tokeniter.TokenIterator`)
is outside the given source; it yields the block's tokens in reverse order. -/
def scan1 (prevcol : Int) (col : Nat) : List Tok → Option (Tok × List Tok)
  | [] => none
  | t :: ts =>
    if (t.pos : Int) ≤ prevcol then none
    else if t.pos ≤ col then
      if t.kind = TKind.matchEnd ∧ recognizedName t.matchname then some (t, ts)
      else scan1 prevcol col ts
    else scan1 prevcol col ts

/-- Second backward scan of `BoundLinks.indices` (`for token in tokens.backward()`):
continues from where the first scan stopped, crossing into earlier blocks,
keeping a nesting counter; a same-name `MatchStart` at nesting 1 is the match
(returned with its block index), a same-name `MatchEnd` deepens the nesting.
The stream is a list of `(blockIndex, reversed tokens)` segments; `scan2One`
walks one segment, returning either the match or the nesting level at which
the next segment is entered.  Modelled from the spec: the cross-block backward
iterator is outside the given source. -/
def scan2One (name : String) (bi : Nat) : Nat → List Tok → Sum (Nat × Tok) Nat
  | nest, [] => Sum.inr nest
  | nest, t :: ts =>
    if t.kind = TKind.matchStart ∧ t.matchname = name then
      if nest = 1 then Sum.inl (bi, t)
      else scan2One name bi (nest - 1) ts
    else if t.kind = TKind.matchEnd ∧ t.matchname = name then
      scan2One name bi (nest + 1) ts
    else scan2One name bi nest ts

def scan2 (name : String) : Nat → List (Nat × List Tok) → Option (Nat × Tok)
  | _, [] => none
  | nest, (bi, ts) :: segs =>
    match scan2One name bi nest ts with
    | Sum.inl r => some r
    | Sum.inr nest' => scan2 name nest' segs

/-- Blocks preceding block `cblock`, in the order the backward iterator visits
them, each with its reversed token list. -/
def prevSegs (doc : Doc) (cblock : Nat) : List (Nat × List Tok) :=
  (List.range cblock).reverse.map (fun bi => (bi, (lineToks doc bi).reverse))

/-- Query given to `BoundLinks.indices`: a caret with a selection
(`selectionStart`, `selectionEnd`) or a plain point cursor. -/
inductive Query where
  | sel (s e : Nat)
  | point (p : Nat)

/-- Result of `BoundLinks.indices`: a slice (`Match s e` for `slice(s, e)`),
`False` (clear previous highlights) or `None` (no decision). -/
inductive Outcome where
  | Match (s e : Nat)
  | clear
  | indet
deriving DecidableEq, Repr

/-- `BoundLinks.indices`: the selection branch does two binary searches; the
point branch binary-searches the last cursor at or before the caret and, when
the caret sits strictly after it, runs the backward delimiter resolution
(`scan1`/`scan2`) before deciding. -/
def indices (doc : Doc) (cursors : List Nat) (q : Query) : Outcome :=
  match q with
  | .sel s e =>
    let endI := findlink cursors (e - 1)
    if 0 ≤ endI then
      let startI0 := findlink cursors s
      let startI :=
        if startI0 < 0 ∨ cursors.getD startI0.toNat 0 < s then startI0 + 1 else startI0
      if startI ≤ endI then Outcome.Match startI.toNat (endI.toNat + 1) else Outcome.clear
    else Outcome.clear
  | .point p =>
    let index := findlink cursors p
    if index < 0 then Outcome.indet
    else
      let idx := index.toNat
      let cpos := cursors.getD idx 0
      if cpos < p then
        let cblock := blockOf doc p
        let ablock := blockOf doc cpos
        let prevcol : Int :=
          if ablock = cblock then (cpos : Int) - (blockStart doc ablock : Int) else -1
        let col := p - blockStart doc cblock
        match scan1 prevcol col (lineToks doc cblock).reverse with
        | some (t, rest) =>
          match scan2 t.matchname 1 ((cblock, rest) :: prevSegs doc cblock) with
          | some (bi, topen) =>
            let index2 := findlink cursors (blockStart doc bi + topen.pos)
            if index2 < 0 then Outcome.indet
            else if blockOf doc (cursors.getD index2.toNat 0) ≠ bi then Outcome.indet
            else Outcome.Match index2.toNat (index2.toNat + 1)
          | none =>
            if ablock ≠ cblock then Outcome.clear else Outcome.Match idx (idx + 1)
        | none =>
          if ablock ≠ cblock then Outcome.clear else Outcome.Match idx (idx + 1)
      else Outcome.Match idx (idx + 1)

/-- One file's portion of the link table: `(line, col)` keys with their
destination lists, as the items of the Python dict `self._links[filename]`. -/
abbrev LinkEntries := List (LinkKey × List Dest)

/-- Lexicographic order on the `(line, col)` keys of the items, as Python
tuple comparison orders the distinct keys in `sorted(links.items())`. -/
def entryLe (a b : LinkKey × List Dest) : Prop :=
  a.1.1 < b.1.1 ∨ (a.1.1 = b.1.1 ∧ a.1.2 ≤ b.1.2)

instance : DecidableRel entryLe :=
  fun _ _ => inferInstanceAs (Decidable (_ ∨ _))

instance : IsTotal (LinkKey × List Dest) entryLe :=
  ⟨fun a b => by unfold entryLe; omega⟩

instance : IsTrans (LinkKey × List Dest) entryLe :=
  ⟨fun a b c => by unfold entryLe; omega⟩

/-- `sorted(links.items())` from `BoundLinks.__init__`: Python's `sorted` is a
stable comparison sort, and the dict's keys are distinct, so any stable sort
by key yields the same list; embedded as insertion sort. -/
def sortLinks (l : LinkEntries) : LinkEntries :=
  List.insertionSort entryLe l

/-- Validity test from `BoundLinks.__init__`:
`doc.findBlockByNumber(line - 1)` followed by `b.isValid()` — block numbers
`0 .. blockCount - 1` are valid, so the key's 1-based `line` must satisfy
`1 ≤ line` and `line - 1 < blockCount`. -/
def lineValid (doc : Doc) (line : Nat) : Prop :=
  1 ≤ line ∧ line - 1 < doc.length

instance (doc : Doc) (line : Nat) : Decidable (lineValid doc line) :=
  inferInstanceAs (Decidable (_ ∧ _))

/-- The loop of `BoundLinks.__init__` over the sorted items: for each valid
line, append the anchor position `b.position() + column` to `cursors` and the
destination list to `destinations`.  The anchor constructor
(`QTextCursor.setPosition`) is the spec's collaborator `anchorAt(offset)` and
is embedded as the offset itself. -/
def buildLoop (doc : Doc) : LinkEntries → List Nat × List (List Dest)
  | [] => ([], [])
  | ((line, col), dest) :: rest =>
    let r := buildLoop doc rest
    if lineValid doc line then
      ((blockStart doc (line - 1) + col) :: r.1, dest :: r.2)
    else r

/-- `BoundLinks._cursors`: the sorted anchor-position list. -/
def cursorsOf (doc : Doc) (links : LinkEntries) : List Nat :=
  (buildLoop doc (sortLinks links)).1

/-- `BoundLinks._destinations`: the parallel destination-list list. -/
def destsOf (doc : Doc) (links : LinkEntries) : List (List Dest) :=
  (buildLoop doc (sortLinks links)).2

/-- `BoundLinks._cursor_dict`: mapping from the original `(line, col)` key to
its anchor, populated for valid lines only. -/
def cursorDict (doc : Doc) (links : LinkEntries) : List (LinkKey × Nat) :=
  (sortLinks links).filterMap fun e =>
    if lineValid doc e.1.1 then some (e.1, blockStart doc (e.1.1 - 1) + e.1.2) else none

/-- `BoundLinks.cursor(line, column)`: plain dict indexing
`self._cursor_dict[(line, column)]`; `none` stands for the raised `KeyError`. -/
def boundCursor (doc : Doc) (links : LinkEntries) (line col : Nat) : Option Nat :=
  ((cursorDict doc links).find? (fun e => decide (e.1 = (line, col)))).map (fun e => e.2)

/-- Value of a decimal-digit character. -/
def hexVal (c : Char) : Option Nat :=
  if '0' ≤ c ∧ c ≤ '9' then some (c.toNat - 48)
  else if 'a' ≤ c ∧ c ≤ 'f' then some (c.toNat - 87)
  else if 'A' ≤ c ∧ c ≤ 'F' then some (c.toNat - 55)
  else none

/-- `QUrl.fromPercentEncoding` over the path group.  Modelled from the spec:
percent-decoding follows standard URL percent-encoding rules (a `%HH` pair
becomes the character with that code; anything else is kept as-is). -/
def percentDecode : List Char → List Char
  | '%' :: a :: b :: rest =>
    match hexVal a, hexVal b with
    | some x, some y => Char.ofNat (16 * x + y) :: percentDecode rest
    | _, _ => '%' :: percentDecode (a :: b :: rest)
  | c :: rest => c :: percentDecode rest
  | [] => []

/-- `int()` of a `\d+` group: decimal value of a digit string. -/
def natOfDigits (l : List Char) : Nat :=
  l.foldl (fun n c => 10 * n + (c.toNat - 48)) 0

/-- Matching of the regex rest `:(\d+):(\d+)(?::\d+)$` at a fixed position:
each `\d+` is a maximal nonempty digit run (backtracking inside the runs can
never help because each run must be followed by a non-digit or the end), the
non-capturing third group is mandatory (it carries no `?`), and Python's `$`
accepts either the end of the string or a single final newline.  Returns the
`line` and `column` digit groups. -/
def parseTailRe (s : List Char) : Option (List Char × List Char) :=
  match s with
  | [] => none
  | c0 :: r1 =>
    if c0 = ':' then
      let d1 := r1.takeWhile Char.isDigit
      match r1.dropWhile Char.isDigit with
      | [] => none
      | c1 :: r3 =>
        if c1 = ':' then
          let d2 := r3.takeWhile Char.isDigit
          if d1 = [] ∨ d2 = [] then none
          else
            match r3.dropWhile Char.isDigit with
            | [] => none
            | c2 :: r5 =>
              if c2 = ':' then
                match r5.dropWhile Char.isDigit with
                | [] => if r5.takeWhile Char.isDigit = [] then none else some (d1, d2)
                | c3 :: r7 =>
                  if c3 = '\n' ∧ r7 = [] then
                    if r5.takeWhile Char.isDigit = [] then none else some (d1, d2)
                  else none
              else none
        else none
    else none

/-- The lazy `(.*?)` group: try the shortest path prefix first, checking at
each split whether the rest matches `:(\d+):(\d+)(?::\d+)$`; the path may not
contain a newline (Python `.`).  Returns (path, line digits, column digits).
At the end of the string no tail can match (`parseTailRe [] = none`), so the
empty case is `none` directly. -/
def teSearch (acc : List Char) : List Char → Option (List Char × List Char × List Char)
  | [] => none
  | c :: rest' =>
    match parseTailRe (c :: rest') with
    | some (d1, d2) => some (acc.reverse, d1, d2)
    | none => if c = '\n' then none else teSearch (c :: acc) rest'

/-- `textedit_match`: Python `re.compile(r"^textedit://(.*?):(\d+):(\d+)(?::\d+)$").match`. -/
def texteditMatch (s : List Char) : Option (List Char × List Char × List Char) :=
  if s.take 11 = "textedit://".toList then teSearch [] (s.drop 11) else none

/-- `readurl`: percent-decode the path, parse line and column as decimal. -/
def readURL (m : List Char × List Char × List Char) : List Char × Nat × Nat :=
  (percentDecode m.1, natOfDigits m.2.1, natOfDigits m.2.2)

/-- A filename, the decoded path group. -/
abbrev FileName := List Char

/-- One Poppler link as consumed by `Links.__init__`: its URL string and an
opaque identifier for its `linkArea()` rectangle.  The
`isinstance(link, Poppler.LinkBrowse)` test is the spec's boundary capability
(the collaborator exposes URL-carrying links), so every `PLink` carries a
URL. -/
structure PLink where
  url : List Char
  area : Nat
deriving DecidableEq, Repr

/-- Per-document link table `self._links`: filename to `(line, col)` to
destination list, embedded as nested association lists in insertion order. -/
abbrev Table := List (FileName × LinkEntries)

/-- `l.setdefault((line, col), []).append((num, area))`: append a destination
under a key of the inner dict. -/
def addDest : LinkEntries → LinkKey → Dest → LinkEntries
  | [], k, d => [(k, [d])]
  | (k', ds) :: rest, k, d =>
    if k' = k then (k', ds ++ [d]) :: rest else (k', ds) :: addDest rest k d

/-- `self._links.setdefault(filename, {})` followed by the inner append. -/
def addEntry : Table → FileName → LinkKey → Dest → Table
  | [], f, k, d => [(f, addDest [] k d)]
  | (f', m) :: rest, f, k, d =>
    if f' = f then (f', addDest m k d) :: rest else (f', m) :: addEntry rest f k d

/-- The page/link scan of `Links.__init__`: pages in index order, links in
per-page order; each link whose URL matches the regex contributes the event
`(filename, (line, col), (pageNum, area))`. -/
def scanEvents (pages : List (List PLink)) : List (FileName × LinkKey × Dest) :=
  pages.enum.flatMap fun np =>
    np.2.filterMap fun link =>
      match texteditMatch link.url with
      | some m =>
        some ((readURL m).1, ((readURL m).2.1, (readURL m).2.2), (np.1, link.area))
      | none => none

/-- `Links.__init__`'s table construction: the nested page/link loops with the
regex filter, inserting each matching link's destination. -/
def linksTable (pages : List (List PLink)) : Table :=
  pages.enum.foldl
    (fun tbl np =>
      np.2.foldl
        (fun tbl link =>
          match texteditMatch link.url with
          | some m =>
            addEntry tbl (readURL m).1 ((readURL m).2.1, (readURL m).2.2) (np.1, link.area)
          | none => tbl)
        tbl)
    []

/-- Keyed lookup in one file's entries (read side of the inner dict). -/
def lookupEntries (m : LinkEntries) (k : LinkKey) : List Dest :=
  match m.find? (fun e => decide (e.1 = k)) with
  | some e => e.2
  | none => []

/-- Keyed lookup into the link table (read side of `self._links[filename][(line, col)]`). -/
def lookupTable (tbl : Table) (f : FileName) (k : LinkKey) : List Dest :=
  match tbl.find? (fun e => decide (e.1 = f)) with
  | some e => lookupEntries e.2 k
  | none => []

/-- Total number of destinations recorded in a table. -/
def tableSize (tbl : Table) : Nat :=
  (tbl.map (fun e => (e.2.map (fun kv => kv.2.length)).sum)).sum

/-- `Links.cursor(link, load)`: parse the URL, look up a live binding, index
its cursor dict; on a miss with `load`, request the document be opened and
retry the lookup once.  A binding is `(document, link entries)`;
`bindingsAfterOpen` is the binding map as it stands after the `app.openUrl`
request (the collaborator may or may not have bound the file).  `Except.error`
stands for the `KeyError` that `BoundLinks.cursor`'s dict indexing raises. -/
def linksCursor (bindings bindingsAfterOpen : List (FileName × Doc × LinkEntries))
    (url : List Char) (load : Bool) : Except Unit (Option Nat) :=
  match texteditMatch url with
  | some m =>
    let fl := readURL m
    match (bindings.find? (fun e => decide (e.1 = fl.1))).map (fun e => e.2) with
    | some (doc, links) =>
      match boundCursor doc links fl.2.1 fl.2.2 with
      | some c => Except.ok (some c)
      | none => Except.error ()
    | none =>
      if load then
        match (bindingsAfterOpen.find? (fun e => decide (e.1 = fl.1))).map (fun e => e.2) with
        | some (doc, links) =>
          match boundCursor doc links fl.2.1 fl.2.2 with
          | some c => Except.ok (some c)
          | none => Except.error ()
        | none => Except.ok none
      else Except.ok none
  | none => Except.ok none

/-- Digit-string side condition of the spec's URL grammar: nonempty, digits
only. -/
def isDigits (l : List Char) : Prop :=
  l ≠ [] ∧ ∀ c ∈ l, c.isDigit

instance (l : List Char) : Decidable (isDigits l) :=
  inferInstanceAs (Decidable (_ ∧ _))

/-- Modelled from the spec (§6): the URL form
`scheme://<path>:<line>:<column>` terminated by end-of-string or by one more
`:digits` group, with decimal `line`/`column` — the form the claim says is
required for a link to be recorded. -/
def texteditForm (u : List Char) : Prop :=
  ∃ path d1 d2 tail,
    u = "textedit://".toList ++ path ++ [':'] ++ d1 ++ [':'] ++ d2 ++ tail ∧
    isDigits d1 ∧ isDigits d2 ∧
    (tail = [] ∨ ∃ d3, isDigits d3 ∧ tail = ':' :: d3)

/-- The form the code actually accepts: the third `:digits` group is
mandatory, the path may not contain a newline, and the whole URL may
additionally end in one final newline (Python `$`). -/
def texteditFormNl (u : List Char) : Prop :=
  ∃ path d1 d2 d3 nl,
    u = "textedit://".toList ++ path ++ [':'] ++ d1 ++ [':'] ++ d2 ++ [':'] ++ d3 ++ nl ∧
    ('\n' ∉ path) ∧ isDigits d1 ∧ isDigits d2 ∧ isDigits d3 ∧ (nl = [] ∨ nl = ['\n'])

theorem getD_mem {l : List Nat} {i : Nat} (h : i < l.length) : l.getD i 0 ∈ l := by
  induction l generalizing i with
  | nil => simp at h
  | cons a t ih =>
    cases i with
    | zero => simp
    | succ n =>
      simp only [List.getD_cons_succ]
      exact List.mem_cons_of_mem _ (ih (by simpa using h))

theorem cntLe_le_length {cs : List Nat} {pos : Nat} : cntLe cs pos ≤ cs.length :=
  List.countP_le_length _

theorem le_cntLe {cs : List Nat} {pos : Nat} (h : cs.Pairwise (· < ·)) {i : Nat}
    (hi : i < cs.length) (hle : cs.getD i 0 ≤ pos) : i + 1 ≤ cntLe cs pos := by
  induction cs generalizing i with
  | nil => simp at hi
  | cons a t ih =>
    rw [List.pairwise_cons] at h
    cases i with
    | zero =>
      simp only [List.getD_cons_zero] at hle
      simp [cntLe, List.countP_cons, hle]
    | succ n =>
      simp only [List.getD_cons_succ] at hle
      have hn : n < t.length := by simpa using hi
      have htn : t.getD n 0 ∈ t := getD_mem hn
      have ha : a ≤ pos := le_of_lt (lt_of_lt_of_le (h.1 _ htn) hle)
      have := ih h.2 hn hle
      simp only [cntLe, List.countP_cons] at *
      simp [ha]
      omega

theorem cntLe_le {cs : List Nat} {pos : Nat} (h : cs.Pairwise (· < ·)) {i : Nat}
    (hi : i < cs.length) (hgt : pos < cs.getD i 0) : cntLe cs pos ≤ i := by
  induction cs generalizing i with
  | nil => simp [cntLe]
  | cons a t ih =>
    rw [List.pairwise_cons] at h
    cases i with
    | zero =>
      simp only [List.getD_cons_zero] at hgt
      have h0 : cntLe t pos = 0 := by
        apply List.countP_eq_zero.mpr
        intro x hx
        have hax : a < x := h.1 x hx
        simp only [decide_eq_true_eq]
        omega
      have hna : ¬ (decide (a ≤ pos) = true) := by
        simp only [decide_eq_true_eq]
        omega
      simp only [cntLe, List.countP_cons] at h0 ⊢
      simp [hna, h0]
    | succ n =>
      simp only [List.getD_cons_succ] at hgt
      have hn : n < t.length := by simpa using hi
      have hih := ih h.2 hn hgt
      simp only [cntLe, List.countP_cons] at hih ⊢
      split <;> omega

theorem cntLe_pos_getD {cs : List Nat} {pos : Nat} (h : cs.Pairwise (· < ·))
    (hpos : 0 < cntLe cs pos) : cs.getD (cntLe cs pos - 1) 0 ≤ pos := by
  by_contra hc
  push_neg at hc
  have hlt : cntLe cs pos - 1 < cs.length := by
    have := @cntLe_le_length cs pos
    omega
  have := cntLe_le h hlt hc
  omega

theorem findlinkLoop_eq (cs : List Nat) (pos : Nat) (h : cs.Pairwise (· < ·)) :
    ∀ n lo hi, hi - lo ≤ n → lo ≤ cntLe cs pos → cntLe cs pos ≤ hi → hi ≤ cs.length →
      findlinkLoop cs pos lo hi = cntLe cs pos := by
  intro n
  induction n with
  | zero =>
    intro lo hi h1 h2 h3 h4
    rw [findlinkLoop]
    have hnl : ¬ lo < hi := by omega
    simp only [hnl, dite_false]
    omega
  | succ n ih =>
    intro lo hi h1 h2 h3 h4
    rw [findlinkLoop]
    by_cases hlh : lo < hi
    · simp only [hlh, dite_true]
      have hmidlt : (lo + hi) / 2 < hi := by omega
      have hmidge : lo ≤ (lo + hi) / 2 := by omega
      by_cases hc : pos < cs.getD ((lo + hi) / 2) 0
      · simp only [hc, if_true]
        have hble : cntLe cs pos ≤ (lo + hi) / 2 := cntLe_le h (by omega) hc
        exact ih lo ((lo + hi) / 2) (by omega) h2 hble (by omega)
      · simp only [hc, if_false]
        have hbge : (lo + hi) / 2 + 1 ≤ cntLe cs pos :=
          le_cntLe h (by omega) (by omega)
        exact ih ((lo + hi) / 2 + 1) hi (by omega) hbge h3 h4
    · simp only [hlh, dite_false]
      omega

theorem findlink_eq {cs : List Nat} {pos : Nat} (h : cs.Pairwise (· < ·)) :
    findlink cs pos = (cntLe cs pos : Int) - 1 := by
  unfold findlink
  rw [findlinkLoop_eq cs pos h cs.length 0 cs.length (by omega) (Nat.zero_le _)
    cntLe_le_length (le_refl _)]

theorem mem_getD {l : List Nat} {x : Nat} (h : x ∈ l) :
    ∃ i, i < l.length ∧ l.getD i 0 = x := by
  induction l with
  | nil => simp at h
  | cons a t ih =>
    rcases List.mem_cons.mp h with rfl | ht
    · exact ⟨0, by simp⟩
    · obtain ⟨i, hi, hx⟩ := ih ht
      exact ⟨i + 1, by simpa using hi, by simpa using hx⟩

theorem cntLe_eq_zero {cs : List Nat} {pos : Nat} (h : ∀ a ∈ cs, pos < a) :
    cntLe cs pos = 0 := by
  apply List.countP_eq_zero.mpr
  intro x hx
  have := h x hx
  simp only [decide_eq_true_eq]
  omega

theorem cntLe_eq_length {cs : List Nat} {pos : Nat} (h : ∀ a ∈ cs, a ≤ pos) :
    cntLe cs pos = cs.length := by
  apply List.countP_eq_length.mpr
  intro x hx
  simpa using h x hx

theorem cntLe_eq_succ {cs : List Nat} {pos : Nat} (hsort : cs.Pairwise (· < ·))
    {idx : Nat} (hidx : idx < cs.length) (hle : cs.getD idx 0 ≤ pos)
    (hgt : ∀ j, j < cs.length → cs.getD j 0 ≤ pos → j ≤ idx) :
    cntLe cs pos = idx + 1 := by
  have h1 := le_cntLe hsort hidx hle
  have h2 : cntLe cs pos ≤ idx + 1 := by
    by_cases hlen : idx + 1 < cs.length
    · apply cntLe_le hsort hlen
      by_contra hc
      push_neg at hc
      have := hgt (idx + 1) hlen hc
      omega
    · have := @cntLe_le_length cs pos
      omega
  omega

/-- C5: for a point query with strictly sorted anchors, a caret before every
anchor yields `Indeterminate` (`None`), and a caret exactly on anchor `idx`
yields `Match([idx, idx+1))`. -/
theorem point_query_exact_and_before_first (doc : Doc) (cs : List Nat) (p : Nat)
    (hsort : cs.Pairwise (· < ·)) :
    ((∀ a ∈ cs, p < a) → indices doc cs (Query.point p) = Outcome.indet) ∧
    (∀ idx, idx < cs.length → cs.getD idx 0 = p →
      indices doc cs (Query.point p) = Outcome.Match idx (idx + 1)) := by
  constructor
  · intro hall
    have hb : cntLe cs p = 0 := cntLe_eq_zero hall
    have hf : findlink cs p = -1 := by
      rw [findlink_eq hsort, hb]
      rfl
    simp only [indices, hf]
    norm_num
  · intro idx hidx hp
    have hb : cntLe cs p = idx + 1 := by
      apply cntLe_eq_succ hsort hidx (le_of_eq hp)
      intro j hj hjle
      by_contra hc
      push_neg at hc
      have := List.pairwise_iff_getElem.mp hsort idx j hidx hj hc
      rw [List.getD_eq_getElem?_getD, List.getElem?_eq_getElem hidx] at hp
      rw [List.getD_eq_getElem?_getD, List.getElem?_eq_getElem hj] at hjle
      simp at hp hjle
      omega
    have hf : findlink cs p = (idx : Int) := by
      rw [findlink_eq hsort, hb]
      push_cast
      ring
    have hnneg : ¬ ((idx : Int) < 0) := by omega
    simp only [indices, hf, hnneg, if_false, Int.toNat_natCast]
    rw [hp]
    simp

/-- Convenience form of `List.pairwise_iff_getElem` for `getD`. -/
theorem sorted_getD_lt {cs : List Nat} (hsort : cs.Pairwise (· < ·)) {i j : Nat}
    (hij : i < j) (hj : j < cs.length) : cs.getD i 0 < cs.getD j 0 := by
  have hi : i < cs.length := lt_trans hij hj
  have := List.pairwise_iff_getElem.mp hsort i j hi hj hij
  rw [List.getD_eq_getElem?_getD, List.getElem?_eq_getElem hi,
    List.getD_eq_getElem?_getD, List.getElem?_eq_getElem hj]
  simpa using this

/-- C4: selection query outcomes with strictly sorted anchors.  If no anchor
position is `< end`, the result is `Clear`; if every anchor position is
`< start` the result is `Clear`; and when the greatest index with position
`< end` (`eIdx`) and the least index with position `≥ start` (`sIdx`) both
exist, the result is `Match([sIdx, eIdx+1))` when `sIdx ≤ eIdx` and `Clear`
otherwise. -/
theorem selection_query_range (doc : Doc) (cs : List Nat) (s e : Nat)
    (hsort : cs.Pairwise (· < ·)) (hse : s < e) :
    ((∀ a ∈ cs, ¬ a < e) → indices doc cs (Query.sel s e) = Outcome.clear) ∧
    ((∀ a ∈ cs, a < s) → indices doc cs (Query.sel s e) = Outcome.clear) ∧
    (∀ eIdx, eIdx < cs.length → cs.getD eIdx 0 < e →
      (∀ j, j < cs.length → cs.getD j 0 < e → j ≤ eIdx) →
      ∀ sIdx, sIdx < cs.length → s ≤ cs.getD sIdx 0 →
        (∀ j, j < cs.length → s ≤ cs.getD j 0 → sIdx ≤ j) →
        indices doc cs (Query.sel s e) =
          if sIdx ≤ eIdx then Outcome.Match sIdx (eIdx + 1) else Outcome.clear) := by
  refine ⟨?_, ?_, ?_⟩
  · intro hall
    have hb : cntLe cs (e - 1) = 0 := cntLe_eq_zero (by
      intro a ha
      have := hall a ha
      omega)
    have hf : findlink cs (e - 1) = -1 := by
      rw [findlink_eq hsort, hb]
      rfl
    simp only [indices, hf]
    norm_num
  · intro hall
    rcases Nat.eq_zero_or_pos cs.length with hlen | hlen
    · have hb : cntLe cs (e - 1) = 0 := by
        have := @cntLe_le_length cs (e - 1)
        omega
      have hf : findlink cs (e - 1) = -1 := by
        rw [findlink_eq hsort, hb]
        rfl
      simp only [indices, hf]
      norm_num
    · have hble : cntLe cs (e - 1) = cs.length := cntLe_eq_length (by
        intro a ha
        have := hall a ha
        omega)
      have hbs : cntLe cs s = cs.length := cntLe_eq_length (by
        intro a ha
        have := hall a ha
        omega)
      have hfe : findlink cs (e - 1) = (cs.length : Int) - 1 := by
        rw [findlink_eq hsort, hble]
      have hfs : findlink cs s = (cs.length : Int) - 1 := by
        rw [findlink_eq hsort, hbs]
      have hlast : cs.getD ((cs.length : Int) - 1).toNat 0 < s := by
        have hmem := @getD_mem cs ((cs.length : Int) - 1).toNat (by omega)
        exact hall _ hmem
      simp only [indices, hfe, hfs]
      rw [if_pos (by omega), if_pos (Or.inr hlast), if_neg (by omega)]
  · intro eIdx heIdx he1 he2 sIdx hsIdx hs1 hs2
    have hbe : cntLe cs (e - 1) = eIdx + 1 := by
      apply cntLe_eq_succ hsort heIdx (by omega)
      intro j hj hjle
      exact he2 j hj (by omega)
    have hfe : findlink cs (e - 1) = (eIdx : Int) := by
      rw [findlink_eq hsort, hbe]
      push_cast
      ring
    have hprev : ∀ j, j < sIdx → cs.getD j 0 < s := by
      intro j hj
      by_contra hc
      push_neg at hc
      have := hs2 j (lt_trans hj hsIdx) hc
      omega
    rcases lt_or_eq_of_le hs1 with hslt | hseq
    · -- s < cs[sIdx] : the binary search lands one below and is clamped up
      have hbs : cntLe cs s = sIdx := by
        have hub : cntLe cs s ≤ sIdx := cntLe_le hsort hsIdx hslt
        rcases Nat.eq_zero_or_pos sIdx with h0 | h0
        · omega
        · have := @le_cntLe cs s hsort (sIdx - 1) (by omega)
            (le_of_lt (hprev (sIdx - 1) (by omega)))
          omega
      have hfs : findlink cs s = (sIdx : Int) - 1 := by
        rw [findlink_eq hsort, hbs]
      simp only [indices, hfe, hfs]
      rw [if_pos (by omega)]
      have hcond : ((sIdx : Int) - 1 < 0) ∨ cs.getD ((sIdx : Int) - 1).toNat 0 < s := by
        rcases Nat.eq_zero_or_pos sIdx with h0 | h0
        · left
          omega
        · right
          have : ((sIdx : Int) - 1).toNat = sIdx - 1 := by omega
          rw [this]
          exact hprev (sIdx - 1) (by omega)
      rw [if_pos hcond]
      have harith : (sIdx : Int) - 1 + 1 = (sIdx : Int) := by ring
      rw [harith]
      by_cases hle : sIdx ≤ eIdx
      · rw [if_pos (by omega), if_pos hle]
        simp
      · rw [if_neg (by omega), if_neg hle]
    · -- s = cs[sIdx] : the binary search lands exactly on sIdx
      have hbs : cntLe cs s = sIdx + 1 := by
        apply cntLe_eq_succ hsort hsIdx (by omega)
        intro j hj hjle
        by_contra hc
        push_neg at hc
        have := sorted_getD_lt hsort hc hj
        omega
      have hfs : findlink cs s = (sIdx : Int) := by
        rw [findlink_eq hsort, hbs]
        push_cast
        ring
      simp only [indices, hfe, hfs]
      rw [if_pos (by omega)]
      have hcond : ¬ (((sIdx : Int) < 0) ∨ cs.getD ((sIdx : Int)).toNat 0 < s) := by
        push_neg
        refine ⟨by omega, ?_⟩
        rw [Int.toNat_natCast]
        omega
      rw [if_neg hcond]
      by_cases hle : sIdx ≤ eIdx
      · rw [if_pos (by omega), if_pos hle]
        simp
      · rw [if_neg (by omega), if_neg hle]

/-- Witness for C5 at concrete inputs. -/
theorem point_query_exact_and_before_first_witness :
    indices [] [3, 7] (Query.point 1) = Outcome.indet ∧
    indices [] [3, 7] (Query.point 7) = Outcome.Match 1 2 :=
  ⟨(point_query_exact_and_before_first [] [3, 7] 1 (by decide)).1 (by decide),
   (point_query_exact_and_before_first [] [3, 7] 7 (by decide)).2 1 (by decide) (by decide)⟩

/-- Witness for C4 at concrete inputs: anchors at positions 2,4,6,8,10,12,14;
a selection `[5,13)` covers indices 2..5 and yields `Match([2,6))`; a selection
entirely after the last anchor yields `Clear`. -/
theorem selection_query_range_witness :
    indices [] [2, 4, 6, 8, 10, 12, 14] (Query.sel 5 13) = Outcome.Match 2 6 ∧
    indices [] [2, 4] (Query.sel 5 9) = Outcome.clear := by
  constructor
  · have h := (selection_query_range [] [2, 4, 6, 8, 10, 12, 14] 5 13 (by decide)
      (by decide)).2.2 5 (by decide) (by decide) (by decide) 2 (by decide) (by decide)
      (by decide)
    simpa using h
  · exact (selection_query_range [] [2, 4] 5 9 (by decide) (by decide)).2.1 (by decide)

theorem blockStart_nil (i : Nat) : blockStart [] i = 0 := by
  cases i <;> rfl

theorem blockStart_succ (doc : Doc) (i : Nat) (h : i < doc.length) :
    blockStart doc (i + 1) = blockStart doc i + (doc.getD i ⟨0, []⟩).len + 1 := by
  induction doc generalizing i with
  | nil => simp at h
  | cons l ls ih =>
    cases i with
    | zero =>
      show l.len + 1 + blockStart ls 0 = blockStart (l :: ls) 0 + l.len + 1
      simp [blockStart]
    | succ n =>
      have hn : n < ls.length := by simpa using h
      show l.len + 1 + blockStart ls (n + 1) = l.len + 1 + blockStart ls n + _ + 1
      rw [ih n hn]
      simp only [List.getD_cons_succ]
      omega

theorem blockStart_mono (doc : Doc) {i j : Nat} (h : i ≤ j) :
    blockStart doc i ≤ blockStart doc j := by
  induction doc generalizing i j with
  | nil => rw [blockStart_nil, blockStart_nil]
  | cons l ls ih =>
    cases i with
    | zero =>
      show blockStart (l :: ls) 0 ≤ _
      simp [blockStart]
    | succ n =>
      cases j with
      | zero => omega
      | succ m =>
        show l.len + 1 + blockStart ls n ≤ l.len + 1 + blockStart ls m
        have := @ih n m (by omega)
        omega

theorem anchor_lt_anchor (doc : Doc) {l1 c1 l2 c2 : Nat}
    (h : l1 < l2 ∨ (l1 = l2 ∧ c1 < c2))
    (hv1 : lineValid doc l1) (hv2 : lineValid doc l2)
    (hc1 : c1 ≤ (doc.getD (l1 - 1) ⟨0, []⟩).len) :
    blockStart doc (l1 - 1) + c1 < blockStart doc (l2 - 1) + c2 := by
  obtain ⟨hv11, hv12⟩ := hv1
  rcases h with hlt | ⟨rfl, hclt⟩
  · have hsucc := blockStart_succ doc (l1 - 1) hv12
    have hm : blockStart doc (l1 - 1 + 1) ≤ blockStart doc (l2 - 1) :=
      blockStart_mono doc (by omega)
    omega
  · omega

theorem buildLoop_fst_mem (doc : Doc) :
    ∀ (l : LinkEntries) (q : Nat), q ∈ (buildLoop doc l).1 →
      ∃ e ∈ l, lineValid doc e.1.1 ∧ q = blockStart doc (e.1.1 - 1) + e.1.2 := by
  intro l
  induction l with
  | nil => intro q hq; simp [buildLoop] at hq
  | cons e rest ih =>
    intro q hq
    obtain ⟨⟨line, col⟩, ds⟩ := e
    simp only [buildLoop] at hq
    by_cases hv : lineValid doc line
    · rw [if_pos hv] at hq
      rcases List.mem_cons.mp hq with rfl | hmem
      · exact ⟨((line, col), ds), List.mem_cons_self .., hv, rfl⟩
      · obtain ⟨e', he', hv', hq'⟩ := ih q hmem
        exact ⟨e', List.mem_cons_of_mem _ he', hv', hq'⟩
    · rw [if_neg hv] at hq
      obtain ⟨e', he', hv', hq'⟩ := ih q hq
      exact ⟨e', List.mem_cons_of_mem _ he', hv', hq'⟩

theorem buildLoop_sorted (doc : Doc) :
    ∀ l : LinkEntries,
      l.Pairwise (fun a b => entryLe a b ∧ a.1 ≠ b.1) →
      (∀ e ∈ l, lineValid doc e.1.1 → e.1.2 ≤ (doc.getD (e.1.1 - 1) ⟨0, []⟩).len) →
      (buildLoop doc l).1.Pairwise (· < ·) := by
  intro l
  induction l with
  | nil => intro _ _; simp [buildLoop]
  | cons e rest ih =>
    intro hpw hcol
    rw [List.pairwise_cons] at hpw
    obtain ⟨⟨line, col⟩, ds⟩ := e
    simp only [buildLoop]
    by_cases hv : lineValid doc line
    · rw [if_pos hv]
      refine List.pairwise_cons.mpr
        ⟨?_, ih hpw.2 (fun e' he' => hcol e' (List.mem_cons_of_mem _ he'))⟩
      intro q hq
      obtain ⟨e', he', hv', hq'⟩ := buildLoop_fst_mem doc rest q hq
      obtain ⟨hle, hne⟩ := hpw.1 e' he'
      unfold entryLe at hle
      dsimp only at hle hne
      have hcb := hcol ((line, col), ds) (List.mem_cons_self _ _) hv
      dsimp only at hcb
      subst hq'
      apply anchor_lt_anchor doc _ hv hv' hcb
      rcases hle with hlt | ⟨heq, hcle⟩
      · exact Or.inl hlt
      · refine Or.inr ⟨heq, ?_⟩
        rcases Nat.lt_or_ge col e'.1.2 with h | h
        · exact h
        · exfalso
          apply hne
          have hc2 : col = e'.1.2 := by omega
          rw [heq, hc2]
    · rw [if_neg hv]
      exact ih hpw.2 (fun e' he' => hcol e' (List.mem_cons_of_mem _ he'))

/-- C2 counterexample: binding the table `{(1,4): d0, (2,0): d1}` to a buffer
of two lines of length 2 yields anchor positions `[4, 3]` — the key `(1,4)`
has a column beyond the end of line 1 (position 4 lies on line 2), so the
anchors array is not strictly increasing even immediately after construction. -/
theorem anchors_not_increasing_cex :
    cursorsOf [⟨2, []⟩, ⟨2, []⟩] [((1, 4), [(0, 0)]), ((2, 0), [(0, 1)])] = [4, 3] ∧
    ¬ (cursorsOf [⟨2, []⟩, ⟨2, []⟩]
        [((1, 4), [(0, 0)]), ((2, 0), [(0, 1)])]).Pairwise (· < ·) := by
  constructor
  · rfl
  · intro h
    have h43 : (4 : Nat) < 3 := by
      have := List.pairwise_cons.mp (show List.Pairwise (· < ·) [4, 3] from h)
      exact this.1 3 (List.mem_singleton.mpr rfl)
    omega

/-- C2 (amended): for a link table with distinct keys each of whose columns
stays within its line (the anchor does not spill past the line's end), the
anchor positions produced by binding are strictly increasing in buffer
position immediately after construction. -/
theorem anchors_strictly_increasing (doc : Doc) (links : LinkEntries)
    (hkeys : (links.map (fun e => e.1)).Nodup)
    (hcol : ∀ e ∈ links, lineValid doc e.1.1 →
      e.1.2 ≤ (doc.getD (e.1.1 - 1) ⟨0, []⟩).len) :
    (cursorsOf doc links).Pairwise (· < ·) := by
  have hperm : List.Perm (sortLinks links) links := List.perm_insertionSort entryLe links
  have hsorted : (sortLinks links).Pairwise entryLe := List.sorted_insertionSort entryLe links
  have hnd : ((sortLinks links).map (fun e => e.1)).Nodup :=
    ((hperm.map (fun e => e.1)).nodup_iff).mpr hkeys
  have hne : (sortLinks links).Pairwise (fun a b => a.1 ≠ b.1) := List.pairwise_map.mp hnd
  unfold cursorsOf
  apply buildLoop_sorted doc (sortLinks links) (hsorted.and hne)
  intro e he
  exact hcol e (hperm.subset he)

/-- Witness for the amended C2 at a concrete binding. -/
theorem anchors_strictly_increasing_witness :
    (cursorsOf [⟨2, []⟩, ⟨2, []⟩] [((1, 1), [(0, 0)]), ((2, 0), [(0, 1)])]).Pairwise (· < ·) :=
  anchors_strictly_increasing _ _ (by decide) (by decide)

theorem mem_cursorDict {doc : Doc} {links : LinkEntries} {x : LinkKey × Nat} :
    x ∈ cursorDict doc links ↔
      ∃ e, e ∈ links ∧ lineValid doc e.1.1 ∧
        x = (e.1, blockStart doc (e.1.1 - 1) + e.1.2) := by
  unfold cursorDict
  rw [List.mem_filterMap]
  constructor
  · rintro ⟨e, he, hfe⟩
    by_cases hv : lineValid doc e.1.1
    · rw [if_pos hv] at hfe
      exact ⟨e, (List.perm_insertionSort entryLe links).subset he, hv,
        (Option.some_inj.mp hfe).symm⟩
    · rw [if_neg hv] at hfe
      exact absurd hfe (by simp)
  · rintro ⟨e, he, hv, rfl⟩
    refine ⟨e, ?_, ?_⟩
    · exact ((List.perm_insertionSort entryLe links).mem_iff).mpr he
    · rw [if_pos hv]

/-- C8: `cursor(line, column)` returns the anchor created for a bound
`(line, column)` key, and returns the `KeyError` absence exactly when the key
was never bound — including keys present in the link table whose line was out
of the buffer's range at bind time. -/
theorem cursor_exact_lookup (doc : Doc) (links : LinkEntries) :
    (∀ line col ds, ((line, col), ds) ∈ links → lineValid doc line →
      boundCursor doc links line col = some (blockStart doc (line - 1) + col)) ∧
    (∀ line col, boundCursor doc links line col = none ↔
      ¬ ∃ ds, ((line, col), ds) ∈ links ∧ lineValid doc line) := by
  constructor
  · intro line col ds hmem hv
    have hx : ((line, col), blockStart doc (line - 1) + col) ∈ cursorDict doc links :=
      mem_cursorDict.mpr ⟨((line, col), ds), hmem, hv, rfl⟩
    have hsome : ((cursorDict doc links).find? (fun e => decide (e.1 = (line, col)))).isSome := by
      rw [List.find?_isSome]
      exact ⟨_, hx, by simp⟩
    obtain ⟨y, hy⟩ := Option.isSome_iff_exists.mp hsome
    have hymem := List.mem_of_find?_eq_some hy
    have hyp := List.find?_some hy
    rw [decide_eq_true_eq] at hyp
    obtain ⟨e, _, _, hyeq⟩ := mem_cursorDict.mp hymem
    subst hyeq
    have he1 : e.1 = (line, col) := hyp
    unfold boundCursor
    rw [hy]
    simp only [Option.map_some']
    rw [he1]
  · intro line col
    unfold boundCursor
    rw [Option.map_eq_none', List.find?_eq_none]
    constructor
    · rintro hall ⟨ds, hmem, hv⟩
      exact absurd (by simp)
        (hall ((line, col), blockStart doc (line - 1) + col)
          (mem_cursorDict.mpr ⟨((line, col), ds), hmem, hv, rfl⟩))
    · intro hne x hxmem
      obtain ⟨e, he, hv, rfl⟩ := mem_cursorDict.mp hxmem
      simp only [decide_eq_true_eq]
      intro heq
      apply hne
      have hee : e = ((line, col), e.2) := by
        rw [← heq]
      refine ⟨e.2, ?_, ?_⟩
      · rw [← hee]
        exact he
      · have : e.1.1 = line := by rw [heq]
        rw [← this]
        exact hv

/-- Witness for C8: a 10-line buffer with keys `(3,0)` and `(5,2)` bound;
exact lookups of the bound keys return their anchors (offsets 12 and 26), and
lookup of the unbound `(4,0)` gives the `KeyError` absence. -/
theorem cursor_exact_lookup_witness :
    boundCursor (List.replicate 10 ⟨5, []⟩) [((3, 0), [(0, 0)]), ((5, 2), [(0, 1)])] 3 0
        = some 12 ∧
    boundCursor (List.replicate 10 ⟨5, []⟩) [((3, 0), [(0, 0)]), ((5, 2), [(0, 1)])] 5 2
        = some 26 ∧
    boundCursor (List.replicate 10 ⟨5, []⟩) [((3, 0), [(0, 0)]), ((5, 2), [(0, 1)])] 4 0
        = none := by
  refine ⟨?_, ?_, ?_⟩
  · exact (cursor_exact_lookup _ _).1 3 0 [(0, 0)] (by decide) (by decide)
  · exact (cursor_exact_lookup _ _).1 5 2 [(0, 1)] (by decide) (by decide)
  · refine ((cursor_exact_lookup _ _).2 4 0).mpr ?_
    rintro ⟨ds, hmem, -⟩
    simp [List.mem_cons] at hmem

/-- C9 (code-bug exhibit): a link whose URL is well formed and whose file has
a live binding, but whose line (9) was beyond the bound buffer's single line
at bind time, makes `Links.cursor` raise `KeyError` out of the raw dict
indexing in `BoundLinks.cursor` — not return the promised absence. -/
theorem links_cursor_keyerror_cex :
    linksCursor [("/a.ly".toList, ([⟨5, []⟩], [((9, 0), [(0, 0)])]))]
      [("/a.ly".toList, ([⟨5, []⟩], [((9, 0), [(0, 0)])]))]
      "textedit:///a.ly:9:0:0".toList true = Except.error () := rfl

theorem buildLoop_fst_eq (doc : Doc) :
    ∀ l : LinkEntries,
      (buildLoop doc l).1 = l.filterMap
        (fun e => if lineValid doc e.1.1 then
          some (blockStart doc (e.1.1 - 1) + e.1.2) else none) := by
  intro l
  induction l with
  | nil => rfl
  | cons e rest ih =>
    obtain ⟨⟨line, col⟩, ds⟩ := e
    simp only [buildLoop, List.filterMap_cons]
    by_cases hv : lineValid doc line
    · rw [if_pos hv]
      simp only [if_pos hv]
      rw [ih]
    · rw [if_neg hv]
      simp only [if_neg hv]
      rw [ih]

theorem buildLoop_snd_eq (doc : Doc) :
    ∀ l : LinkEntries,
      (buildLoop doc l).2 = l.filterMap
        (fun e => if lineValid doc e.1.1 then some e.2 else none) := by
  intro l
  induction l with
  | nil => rfl
  | cons e rest ih =>
    obtain ⟨⟨line, col⟩, ds⟩ := e
    simp only [buildLoop, List.filterMap_cons]
    by_cases hv : lineValid doc line
    · rw [if_pos hv]
      simp only [if_pos hv]
      rw [ih]
    · rw [if_neg hv]
      simp only [if_neg hv]
      rw [ih]

theorem buildLoop_len (doc : Doc) :
    ∀ l : LinkEntries, (buildLoop doc l).1.length = (buildLoop doc l).2.length := by
  intro l
  induction l with
  | nil => rfl
  | cons e rest ih =>
    obtain ⟨⟨line, col⟩, ds⟩ := e
    simp only [buildLoop]
    by_cases hv : lineValid doc line
    · rw [if_pos hv]
      simpa using ih
    · rw [if_neg hv]
      exact ih

theorem length_filterMap_guard {α β : Type} (g : α → β) (P : α → Prop) [DecidablePred P] :
    ∀ l : List α,
      (l.filterMap (fun e => if P e then some (g e) else none)).length =
        l.countP (fun e => decide (P e)) := by
  intro l
  induction l with
  | nil => rfl
  | cons a rest ih =>
    simp only [List.filterMap_cons, List.countP_cons]
    by_cases hp : P a
    · simp [if_pos hp, List.length_cons, ih, decide_eq_true hp]
    · simp [if_neg hp, ih, decide_eq_false hp]

theorem buildLoop_mem_idx (doc : Doc) :
    ∀ (l : LinkEntries) (line col : Nat) (ds : List Dest),
      ((line, col), ds) ∈ l → lineValid doc line →
      ∃ i, i < (buildLoop doc l).1.length ∧
        (buildLoop doc l).1.getD i 0 = blockStart doc (line - 1) + col ∧
        (buildLoop doc l).2.getD i [] = ds := by
  intro l
  induction l with
  | nil => intro line col ds h _; simp at h
  | cons e rest ih =>
    intro line col ds hmem hv
    obtain ⟨⟨l0, c0⟩, d0⟩ := e
    rcases List.mem_cons.mp hmem with heq | htail
    · obtain ⟨h1, h2⟩ := Prod.mk.injEq .. ▸ heq
      obtain ⟨hl, hc⟩ := Prod.mk.injEq .. ▸ h1
      subst hl hc h2
      simp only [buildLoop, if_pos hv]
      exact ⟨0, by simp, by simp, by simp⟩
    · obtain ⟨i, hlen, hc, hd⟩ := ih line col ds htail hv
      simp only [buildLoop]
      by_cases hv0 : lineValid doc l0
      · rw [if_pos hv0]
        exact ⟨i + 1, by simpa using hlen, by simpa using hc, by simpa using hd⟩
      · rw [if_neg hv0]
        exact ⟨i, hlen, hc, hd⟩

/-- C6: binding construction processes the keys in ascending `(line, col)`
order (a sorted permutation of the table's items); for each key with a valid
line it appends the anchor `line start + column` and the key's destination
list to parallel arrays, skipping out-of-range lines, so both arrays have
length equal to the number of in-range keys, and every in-range key's anchor
and destination list appear at a common index. -/
theorem binding_construction (doc : Doc) (links : LinkEntries) :
    List.Perm (sortLinks links) links ∧
    (sortLinks links).Pairwise entryLe ∧
    cursorsOf doc links = (sortLinks links).filterMap
      (fun e => if lineValid doc e.1.1 then
        some (blockStart doc (e.1.1 - 1) + e.1.2) else none) ∧
    destsOf doc links = (sortLinks links).filterMap
      (fun e => if lineValid doc e.1.1 then some e.2 else none) ∧
    (cursorsOf doc links).length = (destsOf doc links).length ∧
    (cursorsOf doc links).length = links.countP (fun e => decide (lineValid doc e.1.1)) ∧
    (∀ line col ds, ((line, col), ds) ∈ links → lineValid doc line →
      ∃ i, i < (cursorsOf doc links).length ∧
        (cursorsOf doc links).getD i 0 = blockStart doc (line - 1) + col ∧
        (destsOf doc links).getD i [] = ds) := by
  have hperm : List.Perm (sortLinks links) links := List.perm_insertionSort entryLe links
  refine ⟨hperm, List.sorted_insertionSort entryLe links,
    buildLoop_fst_eq doc _, buildLoop_snd_eq doc _, buildLoop_len doc _, ?_, ?_⟩
  · show (buildLoop doc (sortLinks links)).1.length = _
    rw [buildLoop_fst_eq doc, length_filterMap_guard]
    exact hperm.countP_eq _
  · intro line col ds hmem hv
    exact buildLoop_mem_idx doc (sortLinks links) line col ds
      (hperm.mem_iff.mpr hmem) hv

/-- Witness for C6: a two-line buffer (lengths 5), keys `(3,0)` (out of
range, skipped), `(2,4)` and `(1,0)`; the key `(2,4)` gets the anchor
`6 + 4 = 10` paired with its destinations at a common index. -/
theorem binding_construction_witness :
    ∃ i, i < (cursorsOf [⟨5, []⟩, ⟨5, []⟩]
        [((3, 0), [(0, 7)]), ((2, 4), [(0, 9)]), ((1, 0), [(0, 5)])]).length ∧
      (cursorsOf [⟨5, []⟩, ⟨5, []⟩]
        [((3, 0), [(0, 7)]), ((2, 4), [(0, 9)]), ((1, 0), [(0, 5)])]).getD i 0 = 10 ∧
      (destsOf [⟨5, []⟩, ⟨5, []⟩]
        [((3, 0), [(0, 7)]), ((2, 4), [(0, 9)]), ((1, 0), [(0, 5)])]).getD i [] = [(0, 9)] :=
  (binding_construction [⟨5, []⟩, ⟨5, []⟩]
    [((3, 0), [(0, 7)]), ((2, 4), [(0, 9)]), ((1, 0), [(0, 5)])]).2.2.2.2.2.2
    2 4 [(0, 9)] (by decide) (by decide)

/-- C10 counterexample: on a line with tokens `MatchStart slur` at column 0,
`MatchEnd slur` at column 3 and a non-closer token at column 4, anchors at
positions 0 and 2 and the caret at position 5, the first backward scan passes
over the non-closer at column 4 (the nearest token at or before the caret
column) and finds the recognized closer at column 3 lying behind it, and the
query resolves through it to the opener's anchor: `Match([0,1))` — so the
scan does not terminate at the first token regardless of kind, and a closer
behind a non-closer token is considered. -/
theorem scan_passes_non_closers_cex :
    scan1 2 5 ((lineToks [⟨8, [⟨0, TKind.matchStart, "slur"⟩, ⟨3, TKind.matchEnd, "slur"⟩,
          ⟨4, TKind.other, "x"⟩]⟩] 0).reverse) =
      some (⟨3, TKind.matchEnd, "slur"⟩, [⟨0, TKind.matchStart, "slur"⟩]) ∧
    indices [⟨8, [⟨0, TKind.matchStart, "slur"⟩, ⟨3, TKind.matchEnd, "slur"⟩,
        ⟨4, TKind.other, "x"⟩]⟩] [0, 2] (Query.point 5) = Outcome.Match 0 1 := by
  constructor
  · rfl
  · simp [indices, findlink, findlinkLoop, scan1, scan2, scan2One, lineToks, blockOf,
      blockStart, prevSegs, recognizedName]

/-- C10 (amended): with the line's tokens strictly decreasing in start column
in backward order, the first backward scan tests every token whose start
column lies in the window `(prevcol, col]` from right to left and stops at
the first recognized closer among them; tokens of other kinds never stop the
scan early. -/
theorem scan_finds_first_recognized_closer (prevcol : Int) (col : Nat) (rts : List Tok)
    (hsort : rts.Pairwise (fun a b => b.pos < a.pos)) :
    (scan1 prevcol col rts).map Prod.fst =
      rts.find? (fun t => decide (prevcol < (t.pos : Int)) && decide (t.pos ≤ col) &&
        decide (t.kind = TKind.matchEnd) && recognizedName t.matchname) := by
  induction rts with
  | nil => rfl
  | cons t ts ih =>
    rw [List.pairwise_cons] at hsort
    show (scan1 prevcol col (t :: ts)).map Prod.fst = _
    unfold scan1
    by_cases h1 : (t.pos : Int) ≤ prevcol
    · rw [if_pos h1]
      have hpt : (decide (prevcol < (t.pos : Int)) && decide (t.pos ≤ col) &&
          decide (t.kind = TKind.matchEnd) && recognizedName t.matchname) = false := by
        have : ¬ prevcol < (t.pos : Int) := by omega
        simp [this]
      simp only [List.find?_cons, hpt]
      rw [List.find?_eq_none.mpr]
      · rfl
      · intro x hx
        have hxp : x.pos < t.pos := hsort.1 x hx
        have : ¬ prevcol < (x.pos : Int) := by omega
        simp [this]
    · rw [if_neg h1]
      by_cases h2 : t.pos ≤ col
      · rw [if_pos h2]
        by_cases h3 : t.kind = TKind.matchEnd ∧ recognizedName t.matchname
        · rw [if_pos h3]
          have hpt : (decide (prevcol < (t.pos : Int)) && decide (t.pos ≤ col) &&
              decide (t.kind = TKind.matchEnd) && recognizedName t.matchname) = true := by
            have : prevcol < (t.pos : Int) := by omega
            simp [this, h2, h3.1, h3.2]
          simp only [List.find?_cons, hpt]
          rfl
        · rw [if_neg h3]
          have hpt : (decide (prevcol < (t.pos : Int)) && decide (t.pos ≤ col) &&
              decide (t.kind = TKind.matchEnd) && recognizedName t.matchname) = false := by
            rcases Decidable.not_and_iff_or_not.mp h3 with hk | hn
            · simp [hk]
            · simp [Bool.eq_false_iff.mpr hn]
          simp only [List.find?_cons, hpt]
          exact ih hsort.2
      · rw [if_neg h2]
        have hpt : (decide (prevcol < (t.pos : Int)) && decide (t.pos ≤ col) &&
            decide (t.kind = TKind.matchEnd) && recognizedName t.matchname) = false := by
          simp [h2]
        simp only [List.find?_cons, hpt]
        exact ih hsort.2

/-- Witness for the amended C10: the backward scan on tokens at columns 4
(non-closer) and 3 (slur closer) returns the closer at column 3, the first
recognized closer in the window. -/
theorem scan_finds_first_recognized_closer_witness :
    (scan1 2 5 [⟨4, TKind.other, "x"⟩, ⟨3, TKind.matchEnd, "slur"⟩,
        ⟨0, TKind.matchStart, "slur"⟩]).map Prod.fst =
      some ⟨3, TKind.matchEnd, "slur"⟩ := by
  rw [scan_finds_first_recognized_closer 2 5 _ (by decide)]
  rfl

/-- C1 counterexample: caret at position 5 (line 2) of a two-line tokenless
buffer whose only anchor sits at position 0 (line 1): the backward scan
encounters no end-marker at all (`scan1` returns `none`), yet the outcome is
`Clear`, not the `Indeterminate` the claim requires for that case. -/
theorem point_query_no_end_marker_cex :
    scan1 (-1) (5 - blockStart [⟨3, []⟩, ⟨3, []⟩] 1)
        ((lineToks [⟨3, []⟩, ⟨3, []⟩] 1).reverse) = none ∧
    indices [⟨3, []⟩, ⟨3, []⟩] [0] (Query.point 5) = Outcome.clear := by
  constructor
  · rfl
  · simp [indices, findlink, findlinkLoop, scan1, lineToks, blockOf, blockStart, prevSegs]

/-- C1 (amended): point query with strictly sorted anchors, the caret
strictly after the nearest preceding anchor (index `idx`).  (1) If the
backward scan finds a recognized closer, the nested backward scan resolves
its opener, and an anchor `j` lies exactly at the opener's buffer offset on
the opener's block, the result is `Match([j, j+1))`.  (2) If the nested scan
fails (mismatched/unbalanced nesting), the result is `Clear` when the nearest
anchor lies on a different block than the caret, and `Match([idx, idx+1))`
when it lies on the caret's block.  (3) If no end-marker is encountered at
all, the outcome is the same as in (2) — not `Indeterminate`. -/
theorem point_query_delimiter_resolution (doc : Doc) (cs : List Nat) (p idx : Nat)
    (hsort : cs.Pairwise (· < ·)) (hidx : idx < cs.length)
    (hlt : cs.getD idx 0 < p)
    (hnear : ∀ j, j < cs.length → cs.getD j 0 ≤ p → j ≤ idx)
    (cblock ablock : Nat) (prevcol : Int) (col : Nat)
    (hcb : cblock = blockOf doc p)
    (hab : ablock = blockOf doc (cs.getD idx 0))
    (hpc : prevcol = if ablock = cblock then
      (cs.getD idx 0 : Int) - (blockStart doc ablock : Int) else -1)
    (hcol : col = p - blockStart doc cblock) :
    (∀ t rest bi topen j,
      scan1 prevcol col (lineToks doc cblock).reverse = some (t, rest) →
      scan2 t.matchname 1 ((cblock, rest) :: prevSegs doc cblock) = some (bi, topen) →
      j < cs.length → cs.getD j 0 = blockStart doc bi + topen.pos →
      blockOf doc (cs.getD j 0) = bi →
      indices doc cs (Query.point p) = Outcome.Match j (j + 1)) ∧
    (∀ t rest,
      scan1 prevcol col (lineToks doc cblock).reverse = some (t, rest) →
      scan2 t.matchname 1 ((cblock, rest) :: prevSegs doc cblock) = none →
      indices doc cs (Query.point p) =
        (if ablock ≠ cblock then Outcome.clear else Outcome.Match idx (idx + 1))) ∧
    (scan1 prevcol col (lineToks doc cblock).reverse = none →
      indices doc cs (Query.point p) =
        (if ablock ≠ cblock then Outcome.clear else Outcome.Match idx (idx + 1))) := by
  subst hcb hab hpc hcol
  have hb : cntLe cs p = idx + 1 := cntLe_eq_succ hsort hidx (le_of_lt hlt) hnear
  have hf : findlink cs p = (idx : Int) := by
    rw [findlink_eq hsort, hb]
    push_cast
    ring
  have hnneg : ¬ ((idx : Int) < 0) := by omega
  refine ⟨?_, ?_, ?_⟩
  · intro t rest bi topen j hs1 hs2 hj hjpos hjb
    have hbj : cntLe cs (blockStart doc bi + topen.pos) = j + 1 := by
      apply cntLe_eq_succ hsort hj (le_of_eq hjpos)
      intro j' hj' hle
      by_contra hc
      push_neg at hc
      have := sorted_getD_lt hsort hc hj'
      omega
    have hfj : findlink cs (blockStart doc bi + topen.pos) = (j : Int) := by
      rw [findlink_eq hsort, hbj]
      push_cast
      ring
    simp only [indices, hf, hnneg, if_false, Int.toNat_natCast, if_pos hlt, hs1, hs2, hfj]
    have hjneg : ¬ ((j : Int) < 0) := by omega
    simp only [hjneg, if_false, Int.toNat_natCast, hjb]
    simp
  · intro t rest hs1 hs2
    simp only [indices, hf, hnneg, if_false, Int.toNat_natCast, if_pos hlt, hs1, hs2]
  · intro hs1
    simp only [indices, hf, hnneg, if_false, Int.toNat_natCast, if_pos hlt, hs1]

/-- Witness for the amended C1: one line `( ... )` with a slur opener at
column 0 (anchored at position 0) and its closer at column 4; the caret at
position 4 resolves backward through the closer to the opener's anchor,
giving `Match([0, 1))`. -/
theorem point_query_delimiter_resolution_witness :
    indices [⟨6, [⟨0, TKind.matchStart, "slur"⟩, ⟨4, TKind.matchEnd, "slur"⟩]⟩] [0]
      (Query.point 4) = Outcome.Match 0 1 :=
  (point_query_delimiter_resolution
    [⟨6, [⟨0, TKind.matchStart, "slur"⟩, ⟨4, TKind.matchEnd, "slur"⟩]⟩] [0] 4 0
    (by decide) (by decide) (by decide)
    (by intro j hj _; simp only [List.length_singleton] at hj; omega)
    0 0 0 4 rfl rfl rfl rfl).1
    ⟨4, TKind.matchEnd, "slur"⟩ [⟨0, TKind.matchStart, "slur"⟩] 0
    ⟨0, TKind.matchStart, "slur"⟩ 0 rfl rfl (by decide) rfl rfl

theorem lookupEntries_addDest (m : LinkEntries) (k' : LinkKey) (d : Dest) (k : LinkKey) :
    lookupEntries (addDest m k' d) k =
      lookupEntries m k ++ (if k' = k then [d] else []) := by
  induction m with
  | nil =>
    by_cases h : k' = k
    · subst h
      simp [lookupEntries, addDest, List.find?_cons]
    · simp [lookupEntries, addDest, List.find?_cons, h]
  | cons e rest ih =>
    obtain ⟨k0, ds0⟩ := e
    show lookupEntries (addDest ((k0, ds0) :: rest) k' d) k = _
    unfold addDest
    by_cases h0 : k0 = k'
    · rw [if_pos h0]
      subst h0
      by_cases hk : k0 = k
      · subst hk
        simp [lookupEntries, List.find?_cons]
      · simp [lookupEntries, List.find?_cons, hk]
    · rw [if_neg h0]
      by_cases hk : k0 = k
      · subst hk
        have hne : ¬ k' = k0 := fun h => h0 h.symm
        simp [lookupEntries, List.find?_cons, hne]
      · have h1 : lookupEntries ((k0, ds0) :: addDest rest k' d) k =
            lookupEntries (addDest rest k' d) k := by
          simp [lookupEntries, List.find?_cons, hk]
        have h2 : lookupEntries ((k0, ds0) :: rest) k = lookupEntries rest k := by
          simp [lookupEntries, List.find?_cons, hk]
        rw [h1, h2, ih]

theorem lookupTable_addEntry (tbl : Table) (f' : FileName) (k' : LinkKey) (d : Dest)
    (f : FileName) (k : LinkKey) :
    lookupTable (addEntry tbl f' k' d) f k =
      lookupTable tbl f k ++ (if f' = f ∧ k' = k then [d] else []) := by
  induction tbl with
  | nil =>
    by_cases hf : f' = f
    · subst hf
      show lookupTable [(f', addDest [] k' d)] f' k = _
      have h1 : lookupTable [(f', addDest [] k' d)] f' k = lookupEntries (addDest [] k' d) k := by
        simp [lookupTable, List.find?_cons]
      rw [h1, lookupEntries_addDest]
      by_cases hk : k' = k
      · simp [lookupTable, lookupEntries, hk]
      · simp [lookupTable, lookupEntries, hk]
    · show lookupTable [(f', addDest [] k' d)] f k = _
      have h1 : lookupTable [(f', addDest [] k' d)] f k = [] := by
        simp [lookupTable, List.find?_cons, hf]
      rw [h1]
      simp [lookupTable, hf]
  | cons e rest ih =>
    obtain ⟨f0, m0⟩ := e
    show lookupTable (addEntry ((f0, m0) :: rest) f' k' d) f k = _
    unfold addEntry
    by_cases h0 : f0 = f'
    · rw [if_pos h0]
      subst h0
      by_cases hf : f0 = f
      · subst hf
        have h1 : lookupTable ((f0, addDest m0 k' d) :: rest) f0 k =
            lookupEntries (addDest m0 k' d) k := by
          simp [lookupTable, List.find?_cons]
        have h2 : lookupTable ((f0, m0) :: rest) f0 k = lookupEntries m0 k := by
          simp [lookupTable, List.find?_cons]
        rw [h1, h2, lookupEntries_addDest]
        by_cases hk : k' = k
        · simp [hk]
        · simp [hk]
      · have h1 : lookupTable ((f0, addDest m0 k' d) :: rest) f k = lookupTable rest f k := by
          simp [lookupTable, List.find?_cons, hf]
        have h2 : lookupTable ((f0, m0) :: rest) f k = lookupTable rest f k := by
          simp [lookupTable, List.find?_cons, hf]
        rw [h1, h2]
        simp [hf]
    · rw [if_neg h0]
      by_cases hf : f0 = f
      · subst hf
        have hne : ¬ f' = f0 := fun h => h0 h.symm
        have h1 : lookupTable ((f0, m0) :: addEntry rest f' k' d) f0 k = lookupEntries m0 k := by
          simp [lookupTable, List.find?_cons]
        have h2 : lookupTable ((f0, m0) :: rest) f0 k = lookupEntries m0 k := by
          simp [lookupTable, List.find?_cons]
        rw [h1, h2]
        simp [hne]
      · have h1 : lookupTable ((f0, m0) :: addEntry rest f' k' d) f k =
            lookupTable (addEntry rest f' k' d) f k := by
          simp [lookupTable, List.find?_cons, hf]
        have h2 : lookupTable ((f0, m0) :: rest) f k = lookupTable rest f k := by
          simp [lookupTable, List.find?_cons, hf]
        rw [h1, h2, ih]

theorem lookupTable_foldl (evs : List (FileName × LinkKey × Dest)) :
    ∀ (tbl : Table) (f : FileName) (k : LinkKey),
      lookupTable (evs.foldl (fun t ev => addEntry t ev.1 ev.2.1 ev.2.2) tbl) f k =
        lookupTable tbl f k ++ evs.filterMap
          (fun ev => if ev.1 = f ∧ ev.2.1 = k then some ev.2.2 else none) := by
  induction evs with
  | nil => intro tbl f k; simp
  | cons ev rest ih =>
    intro tbl f k
    simp only [List.foldl_cons, List.filterMap_cons]
    rw [ih]
    rw [lookupTable_addEntry]
    by_cases h : ev.1 = f ∧ ev.2.1 = k
    · rw [if_pos h]
      simp only [if_pos h]
      simp [List.append_assoc]
    · rw [if_neg h]
      simp only [if_neg h]
      simp

theorem linksTable_eq_fold (pages : List (List PLink)) :
    linksTable pages = (scanEvents pages).foldl
      (fun t ev => addEntry t ev.1 ev.2.1 ev.2.2) [] := by
  have inner : ∀ (pl : List PLink) (num : Nat) (tbl : Table),
      pl.foldl (fun tbl link => match texteditMatch link.url with
        | some m =>
          addEntry tbl (readURL m).1 ((readURL m).2.1, (readURL m).2.2) (num, link.area)
        | none => tbl) tbl =
      (pl.filterMap fun link => match texteditMatch link.url with
        | some m =>
          some ((readURL m).1, ((readURL m).2.1, (readURL m).2.2), (num, link.area))
        | none => none).foldl (fun t ev => addEntry t ev.1 ev.2.1 ev.2.2) tbl := by
    intro pl num
    induction pl with
    | nil => intro tbl; rfl
    | cons link restp ihp =>
      intro tbl
      simp only [List.foldl_cons, List.filterMap_cons]
      cases htm : texteditMatch link.url with
      | none =>
        simp only [htm]
        exact ihp tbl
      | some m =>
        simp only [htm]
        exact ihp _
  have h : ∀ (ps : List (Nat × List PLink)) (tbl : Table),
      ps.foldl (fun tbl np => np.2.foldl (fun tbl link => match texteditMatch link.url with
        | some m =>
          addEntry tbl (readURL m).1 ((readURL m).2.1, (readURL m).2.2) (np.1, link.area)
        | none => tbl) tbl) tbl =
      (ps.flatMap fun np => np.2.filterMap fun link => match texteditMatch link.url with
        | some m =>
          some ((readURL m).1, ((readURL m).2.1, (readURL m).2.2), (np.1, link.area))
        | none => none).foldl (fun t ev => addEntry t ev.1 ev.2.1 ev.2.2) tbl := by
    intro ps
    induction ps with
    | nil => intro tbl; rfl
    | cons np rest ih =>
      intro tbl
      simp only [List.foldl_cons, List.flatMap_cons, List.foldl_append]
      rw [inner np.2 np.1 tbl, ih]
  exact h pages.enum []

/-- C7: lookup of the built link table by `(file, (line, col))` returns
exactly the destinations inserted for that key during the page/link scan, in
encounter order (pages in index order, links in per-page order), with their
multiplicity, and no re-sorting. -/
theorem lookup_insertion_order (pages : List (List PLink)) (f : FileName) (k : LinkKey) :
    lookupTable (linksTable pages) f k =
      (scanEvents pages).filterMap
        (fun ev => if ev.1 = f ∧ ev.2.1 = k then some ev.2.2 else none) := by
  rw [linksTable_eq_fold, lookupTable_foldl]
  simp [lookupTable]

theorem takeWhile_digits_append (d z : List Char) (hd : ∀ c ∈ d, c.isDigit)
    (hz : ∀ c cs, z = c :: cs → c.isDigit = false) :
    (d ++ z).takeWhile Char.isDigit = d ∧ (d ++ z).dropWhile Char.isDigit = z := by
  induction d with
  | nil =>
    simp only [List.nil_append]
    cases z with
    | nil => simp
    | cons c cs =>
      have hc := hz c cs rfl
      rw [List.takeWhile_cons, List.dropWhile_cons]
      simp [hc]
  | cons c d' ih =>
    have hc : c.isDigit = true := hd c (List.mem_cons_self _ _)
    have := ih (fun x hx => hd x (List.mem_cons_of_mem _ hx))
    simp only [List.cons_append, List.takeWhile_cons, List.dropWhile_cons, hc]
    simp [this.1, this.2]

theorem isEmpty_false_of_ne_nil {l : List Char} (h : l ≠ []) : l.isEmpty = false := by
  cases l with
  | nil => exact absurd rfl h
  | cons a t => rfl

theorem parseTailRe_complete (d1 d2 d3 nl : List Char)
    (h1 : isDigits d1) (h2 : isDigits d2) (h3 : isDigits d3)
    (hnl : nl = [] ∨ nl = ['\n']) :
    parseTailRe (':' :: (d1 ++ ':' :: (d2 ++ ':' :: (d3 ++ nl)))) = some (d1, d2) := by
  have hz1 : ∀ c cs, (':' :: (d2 ++ ':' :: (d3 ++ nl)) : List Char) = c :: cs →
      c.isDigit = false := by
    intro c cs hc
    cases hc
    rfl
  have hz2 : ∀ c cs, (':' :: (d3 ++ nl) : List Char) = c :: cs → c.isDigit = false := by
    intro c cs hc
    cases hc
    rfl
  have hz3 : ∀ c cs, nl = c :: cs → c.isDigit = false := by
    intro c cs hc
    rcases hnl with rfl | rfl
    · simp at hc
    · cases hc
      rfl
  have ht1 := takeWhile_digits_append d1 (':' :: (d2 ++ ':' :: (d3 ++ nl))) h1.2 hz1
  have ht2 := takeWhile_digits_append d2 (':' :: (d3 ++ nl)) h2.2 hz2
  have ht3 := takeWhile_digits_append d3 nl h3.2 hz3
  have hne : ¬ (d1 = [] ∨ d2 = []) := by
    rintro (h | h)
    · exact h1.1 h
    · exact h2.1 h
  rcases hnl with rfl | rfl
  · simp only [List.append_nil] at ht1 ht2 ht3 ⊢
    simp only [parseTailRe, ht1.1, ht1.2, ht2.1, ht2.2, ht3.1, ht3.2, if_neg hne,
      if_neg h3.1, if_true]
  · simp only [parseTailRe, ht1.1, ht1.2, ht2.1, ht2.2, ht3.1, ht3.2, if_neg hne,
      if_neg h3.1, if_true, and_self]

theorem digits_takeWhile (l : List Char) : ∀ c ∈ l.takeWhile Char.isDigit, c.isDigit :=
  fun _ hc => List.mem_takeWhile_imp hc

theorem parseTailRe_sound {s d1 d2 : List Char}
    (h : parseTailRe s = some (d1, d2)) :
    isDigits d1 ∧ isDigits d2 ∧ ∃ d3 nl, isDigits d3 ∧ (nl = [] ∨ nl = ['\n']) ∧
      s = ':' :: (d1 ++ ':' :: (d2 ++ ':' :: (d3 ++ nl))) := by
  cases s with
  | nil => exact absurd h (by simp [parseTailRe])
  | cons c0 r1 =>
    simp only [parseTailRe] at h
    by_cases hc0 : c0 = ':'
    case neg =>
      rw [if_neg hc0] at h
      exact absurd h (by simp)
    rw [if_pos hc0] at h
    subst hc0
    rcases hdw1 : r1.dropWhile Char.isDigit with _ | ⟨c1, r3⟩
    · simp only [hdw1] at h
      exact absurd h (by simp)
    · simp only [hdw1] at h
      by_cases hc1 : c1 = ':'
      case neg =>
        rw [if_neg hc1] at h
        exact absurd h (by simp)
      rw [if_pos hc1] at h
      subst hc1
      by_cases hemp : r1.takeWhile Char.isDigit = [] ∨ r3.takeWhile Char.isDigit = []
      · rw [if_pos hemp] at h
        exact absurd h (by simp)
      rw [if_neg hemp] at h
      rw [not_or] at hemp
      rcases hdw2 : r3.dropWhile Char.isDigit with _ | ⟨c2, r5⟩
      · simp only [hdw2] at h
        exact absurd h (by simp)
      · simp only [hdw2] at h
        by_cases hc2 : c2 = ':'
        case neg =>
          rw [if_neg hc2] at h
          exact absurd h (by simp)
        rw [if_pos hc2] at h
        subst hc2
        have hr1 : r1 = r1.takeWhile Char.isDigit ++ ':' :: r3 := by
          conv in r1 => rw [← List.takeWhile_append_dropWhile Char.isDigit r1]
          rw [hdw1]
        have hr3 : r3 = r3.takeWhile Char.isDigit ++ ':' :: r5 := by
          conv in r3 => rw [← List.takeWhile_append_dropWhile Char.isDigit r3]
          rw [hdw2]
        rcases hdw3 : r5.dropWhile Char.isDigit with _ | ⟨c3, r7⟩
        · simp only [hdw3] at h
          by_cases hemp3 : r5.takeWhile Char.isDigit = []
          · rw [if_pos hemp3] at h
            exact absurd h (by simp)
          rw [if_neg hemp3] at h
          have hp := Option.some_inj.mp h
          have h1e : r1.takeWhile Char.isDigit = d1 := congrArg Prod.fst hp
          have h2e : r3.takeWhile Char.isDigit = d2 := congrArg Prod.snd hp
          have hr5 : r5 = r5.takeWhile Char.isDigit ++ [] := by
            conv in r5 => rw [← List.takeWhile_append_dropWhile Char.isDigit r5]
            rw [hdw3]
          refine ⟨⟨h1e ▸ hemp.1, h1e ▸ digits_takeWhile r1⟩,
            ⟨h2e ▸ hemp.2, h2e ▸ digits_takeWhile r3⟩,
            r5.takeWhile Char.isDigit, [], ⟨hemp3, digits_takeWhile r5⟩, Or.inl rfl, ?_⟩
          rw [hr1, h1e, hr3, h2e, ← hr5]
        · simp only [hdw3] at h
          by_cases hc3 : c3 = '\n' ∧ r7 = []
          case neg =>
            rw [if_neg hc3] at h
            exact absurd h (by simp)
          rw [if_pos hc3] at h
          by_cases hemp3 : r5.takeWhile Char.isDigit = []
          · rw [if_pos hemp3] at h
            exact absurd h (by simp)
          rw [if_neg hemp3] at h
          have hp := Option.some_inj.mp h
          have h1e : r1.takeWhile Char.isDigit = d1 := congrArg Prod.fst hp
          have h2e : r3.takeWhile Char.isDigit = d2 := congrArg Prod.snd hp
          have hr5 : r5 = r5.takeWhile Char.isDigit ++ ['\n'] := by
            conv in r5 => rw [← List.takeWhile_append_dropWhile Char.isDigit r5]
            rw [hdw3, hc3.1, hc3.2]
          refine ⟨⟨h1e ▸ hemp.1, h1e ▸ digits_takeWhile r1⟩,
            ⟨h2e ▸ hemp.2, h2e ▸ digits_takeWhile r3⟩,
            r5.takeWhile Char.isDigit, ['\n'], ⟨hemp3, digits_takeWhile r5⟩, Or.inr rfl, ?_⟩
          rw [hr1, h1e, hr3, h2e]
          conv in r5 => rw [hr5]

theorem teSearch_sound : ∀ (rest acc : List Char) (r : List Char × List Char × List Char),
    teSearch acc rest = some r →
    ∃ i, i ≤ rest.length ∧ ('\n' ∉ rest.take i) ∧
      (parseTailRe (rest.drop i)).isSome = true := by
  intro rest
  induction rest with
  | nil =>
    intro acc r h
    exact absurd h (by simp [teSearch])
  | cons c rest' ih =>
    intro acc r h
    cases hp : parseTailRe (c :: rest') with
    | some d =>
      exact ⟨0, Nat.zero_le _, by simp, by simp [hp]⟩
    | none =>
      simp only [teSearch, hp] at h
      by_cases hc : c = '\n'
      · rw [if_pos hc] at h
        exact absurd h (by simp)
      rw [if_neg hc] at h
      obtain ⟨i, hlen, hnl, hp'⟩ := ih (c :: acc) r h
      refine ⟨i + 1, ?_, ?_, ?_⟩
      · simp only [List.length_cons]
        omega
      · simp only [List.take_succ_cons, List.mem_cons]
        rintro (heq | hmem)
        · exact hc heq.symm
        · exact hnl hmem
      · simpa [List.drop_succ_cons] using hp'

theorem teSearch_complete : ∀ (rest acc : List Char) (i : Nat), i ≤ rest.length →
    ('\n' ∉ rest.take i) → (parseTailRe (rest.drop i)).isSome = true →
    (teSearch acc rest).isSome = true := by
  intro rest
  induction rest with
  | nil =>
    intro acc i _ _ hp
    simp [parseTailRe] at hp
  | cons c rest' ih =>
    intro acc i hi hnl hp
    cases hp0 : parseTailRe (c :: rest') with
    | some d => simp [teSearch, hp0]
    | none =>
      cases i with
      | zero =>
        rw [List.drop_zero, hp0] at hp
        simp at hp
      | succ i' =>
        have hc : ¬ c = '\n' := by
          intro hceq
          apply hnl
          rw [List.take_succ_cons, hceq]
          exact List.mem_cons_self _ _
        simp only [teSearch, hp0]
        rw [if_neg hc]
        apply ih (c :: acc) i'
        · simp only [List.length_cons] at hi
          omega
        · intro hmem
          apply hnl
          rw [List.take_succ_cons]
          exact List.mem_cons_of_mem _ hmem
        · simpa [List.drop_succ_cons] using hp

theorem texteditMatch_isSome_iff (u : List Char) :
    (texteditMatch u).isSome = true ↔ texteditFormNl u := by
  constructor
  · intro h
    unfold texteditMatch at h
    by_cases hpre : u.take 11 = "textedit://".toList
    case neg =>
      rw [if_neg hpre] at h
      simp at h
    rw [if_pos hpre] at h
    obtain ⟨r, hr⟩ := Option.isSome_iff_exists.mp h
    obtain ⟨i, hlen, hnl, hp⟩ := teSearch_sound (u.drop 11) [] r hr
    obtain ⟨pd, hpd⟩ := Option.isSome_iff_exists.mp hp
    obtain ⟨d1, d2⟩ := pd
    obtain ⟨hd1, hd2, d3, nl, hd3, hnl3, heq⟩ := parseTailRe_sound hpd
    refine ⟨(u.drop 11).take i, d1, d2, d3, nl, ?_, hnl, hd1, hd2, hd3, hnl3⟩
    conv_lhs => rw [← List.take_append_drop 11 u, hpre,
      ← List.take_append_drop i (u.drop 11), heq]
    simp [List.append_assoc]
  · rintro ⟨path, d1, d2, d3, nl, hequ, hnotin, hd1, hd2, hd3, hnl⟩
    unfold texteditMatch
    have hequ' : u = "textedit://".toList ++
        (path ++ ([':'] ++ (d1 ++ ([':'] ++ (d2 ++ ([':'] ++ (d3 ++ nl))))))) := by
      rw [hequ]
      simp [List.append_assoc]
    have htake : u.take 11 = "textedit://".toList := by
      rw [hequ']
      exact List.take_left' rfl
    have hdrop : u.drop 11 =
        path ++ ([':'] ++ (d1 ++ ([':'] ++ (d2 ++ ([':'] ++ (d3 ++ nl)))))) := by
      rw [hequ']
      exact List.drop_left' rfl
    rw [if_pos htake]
    apply teSearch_complete (u.drop 11) [] path.length
    · rw [hdrop]
      simp [List.length_append]
    · rw [hdrop, List.take_left]
      exact hnotin
    · rw [hdrop, List.drop_left]
      have hsh : ([':'] ++ (d1 ++ ([':'] ++ (d2 ++ ([':'] ++ (d3 ++ nl)))))) =
          ':' :: (d1 ++ ':' :: (d2 ++ ':' :: (d3 ++ nl))) := rfl
      rw [hsh, parseTailRe_complete d1 d2 d3 nl hd1 hd2 hd3 hnl]
      rfl

theorem addDest_size (m : LinkEntries) (k : LinkKey) (d : Dest) :
    ((addDest m k d).map (fun kv => kv.2.length)).sum =
      (m.map (fun kv => kv.2.length)).sum + 1 := by
  induction m with
  | nil => simp [addDest]
  | cons e rest ih =>
    obtain ⟨k0, ds0⟩ := e
    show ((addDest ((k0, ds0) :: rest) k d).map _).sum = _
    unfold addDest
    by_cases h : k0 = k
    · rw [if_pos h]
      simp only [List.map_cons, List.sum_cons, List.length_append]
      simp
      omega
    · rw [if_neg h]
      simp only [List.map_cons, List.sum_cons, ih]
      omega

theorem addEntry_size (tbl : Table) (f : FileName) (k : LinkKey) (d : Dest) :
    tableSize (addEntry tbl f k d) = tableSize tbl + 1 := by
  induction tbl with
  | nil => simp [addEntry, tableSize, addDest]
  | cons e rest ih =>
    obtain ⟨f0, m0⟩ := e
    show tableSize (addEntry ((f0, m0) :: rest) f k d) = _
    unfold addEntry
    by_cases h : f0 = f
    · rw [if_pos h]
      simp only [tableSize, List.map_cons, List.sum_cons, addDest_size]
      omega
    · rw [if_neg h]
      simp only [tableSize, List.map_cons, List.sum_cons] at ih ⊢
      omega

theorem foldl_addEntry_size (evs : List (FileName × LinkKey × Dest)) :
    ∀ tbl : Table,
      tableSize (evs.foldl (fun t ev => addEntry t ev.1 ev.2.1 ev.2.2) tbl) =
        tableSize tbl + evs.length := by
  induction evs with
  | nil => intro tbl; simp
  | cons ev rest ih =>
    intro tbl
    simp only [List.foldl_cons, List.length_cons]
    rw [ih, addEntry_size]
    omega

theorem filterMap_event_length (num : Nat) (pl : List PLink) :
    (pl.filterMap fun link => match texteditMatch link.url with
      | some m =>
        some ((readURL m).1, ((readURL m).2.1, (readURL m).2.2), (num, link.area))
      | none => none).length = pl.countP (fun l => (texteditMatch l.url).isSome) := by
  induction pl with
  | nil => rfl
  | cons link rest ih =>
    simp only [List.filterMap_cons, List.countP_cons]
    cases htm : texteditMatch link.url with
    | none => simp [htm, ih]
    | some m => simp [htm, ih]

theorem scanEvents_length (pages : List (List PLink)) :
    (scanEvents pages).length =
      (pages.flatMap id).countP (fun l => (texteditMatch l.url).isSome) := by
  have aux : ∀ (ps : List (List PLink)) (n : Nat),
      ((List.enumFrom n ps).flatMap fun np =>
        np.2.filterMap fun link => match texteditMatch link.url with
          | some m =>
            some ((readURL m).1, ((readURL m).2.1, (readURL m).2.2), (np.1, link.area))
          | none => none).length =
      (ps.flatMap id).countP (fun l => (texteditMatch l.url).isSome) := by
    intro ps
    induction ps with
    | nil => intro n; rfl
    | cons page rest ih =>
      intro n
      simp only [List.enumFrom_cons, List.flatMap_cons, List.length_append,
        List.countP_append, id]
      rw [filterMap_event_length, ih]
  exact aux pages 0

/-- C3 (amended): a link is recorded during table construction exactly when
its URL consists of `textedit://`, a newline-free path, and three mandatory
`:digits` groups (line, column, and one ignored trailing group), optionally
followed by a single final newline; every other URL — including one where the
column is followed directly by the end of the string — is silently skipped,
and the number of recorded destinations equals the number of matching links. -/
theorem recorded_iff_url_form :
    (∀ u : List Char, (texteditMatch u).isSome = true ↔ texteditFormNl u) ∧
    (∀ pages : List (List PLink),
      tableSize (linksTable pages) =
        (pages.flatMap id).countP (fun l => (texteditMatch l.url).isSome)) := by
  refine ⟨texteditMatch_isSome_iff, ?_⟩
  intro pages
  rw [linksTable_eq_fold, foldl_addEntry_size, scanEvents_length]
  simp [tableSize]

/-- C3 counterexample: `textedit:///a.ly:12:34` has exactly the form the
claim requires (path, line and column, terminated by end-of-string), yet the
regex rejects it — the extra `:digits` group is mandatory, not optional — so
table construction records nothing for it. -/
theorem url_form_not_recorded_cex :
    texteditForm "textedit:///a.ly:12:34".toList ∧
    texteditMatch "textedit:///a.ly:12:34".toList = none ∧
    linksTable [[⟨"textedit:///a.ly:12:34".toList, 5⟩]] = [] := by
  refine ⟨⟨"/a.ly".toList, "12".toList, "34".toList, [], ?_, ?_, ?_, Or.inl rfl⟩, ?_, ?_⟩
  · rfl
  · decide
  · decide
  · rfl
  · rfl

end PointAndClick
